import Mathlib

/-!
Verification of the Granite Speech feature extraction / processing slice and
the GraniteMoeHybrid configuration constructor.

The Python sources are embedded shallowly:
* machine/tensor values are modelled over `Rat` (the claims under study involve
  no floating-point rounding, only order/affine facts and exact padding),
* strings are `List Char`, with Python's `str.find`/`str.replace`/`str.count`
  modelled character-exactly,
* fallible Python code returns `Except PyErr`,
* the torchaudio mel-spectrogram transform and the base-10 logarithm are
  external collaborators of this repository slice and enter as function
  parameters of the pipeline.
-/

/-- The Python exception kinds raised by the modelled code paths. -/
inductive PyErr where
  | typeError
  | valueError
  | indexError
  | attributeError
  | assertionError
  | zeroDivisionError
  deriving DecidableEq

/-- Python `math.ceil(a / b)` on non-negative integers (`b > 0`), as used by
`_get_num_audio_features`. -/
def pyCeilDiv (a b : Nat) : Nat := (a + b - 1) / b

/-- The dynamically-typed argument that reaches
`GraniteSpeechFeatureExtractor._get_num_audio_features`.  The function is
annotated to take a `logmel` batch feature (whose `.shape` is read), but its
caller in the processor passes the Python list `audio_lengths`. -/
inductive FeatArg where
  | tensor (shape : List Nat)
  | intList (xs : List Nat)

/-- `GraniteSpeechFeatureExtractor._get_num_audio_features` as written in the
source: reads `logmel.shape[1]`, computes `nblocks = ceil(seq_len / window)`
and returns the single integer `nblocks * window // downsample`.  A Python
list has no `.shape` attribute, so a list argument raises `AttributeError`;
a tensor of fewer than two axes raises `IndexError` on `shape[1]`. -/
def getNumAudioFeatures (window downsample : Nat) : FeatArg → Except PyErr Nat
  | .tensor shape =>
    match shape.get? 1 with
    | some seqLen => .ok (pyCeilDiv seqLen window * window / downsample)
    | none => .error .indexError
  | .intList _ => .error .attributeError

/-- Modelled from the spec: the auxiliary frame-count interface
`(per_clip_raw_lengths) -> per_clip_frame_counts` is, in this snapshot,
described by the spec (and exercised by the repository's tests) but not
implemented with that signature under `src/`.  Per spec §4.1 the spectrogram
time-step count for a clip of `L` raw samples is `L // hop + 1`, frame
stacking halves it, and then `nblocks = ceil(time_steps / window)` and
`frame_count = nblocks * window // downsample`, per clip. -/
def getNumAudioFeaturesSpec (hop window downsample : Nat) (lengths : List Nat) : List Nat :=
  lengths.map (fun L => pyCeilDiv ((L / hop + 1) / 2) window * window / downsample)

/-- The fields of `GraniteMoeHybridConfig` that take part in the mamba head
dimension invariant. -/
structure GraniteMoeHybridCfg where
  hidden_size : Nat
  mamba_n_heads : Nat
  mamba_d_head : Nat
  mamba_expand : Nat
  deriving DecidableEq

/-- The head-dimension part of `GraniteMoeHybridConfig.__init__`.
`mamba_d_head = none` models the `"auto"` default.  Python's `%` raises
`ZeroDivisionError` when `mamba_n_heads == 0`, before any `ValueError` can be
raised. -/
def graniteMoeHybridConfigInit (hidden_size mamba_n_heads : Nat)
    (mamba_d_head : Option Nat) (mamba_expand : Nat) :
    Except PyErr GraniteMoeHybridCfg :=
  let mamba_intermediate := mamba_expand * hidden_size
  if mamba_n_heads = 0 then .error .zeroDivisionError
  else if mamba_intermediate % mamba_n_heads ≠ 0 then .error .valueError
  else
    let dh := mamba_d_head.getD (mamba_intermediate / mamba_n_heads)
    if dh * mamba_n_heads ≠ mamba_intermediate then .error .valueError
    else .ok ⟨hidden_size, mamba_n_heads, dh, mamba_expand⟩

/-- An element of a Python list passed as the processor's `text` argument.
The modelled value domain is strings and non-string scalars (the repository's
own negative test uses the integer `424`). -/
inductive PyItem where
  | istr (s : List Char)
  | iint (n : Int)
  deriving DecidableEq

/-- The processor's `text` argument: a string, a list, a non-string scalar, or
missing (`None`). -/
inductive PyText where
  | tstr (s : List Char)
  | tlist (xs : List PyItem)
  | tint (n : Int)
  | tnone
  deriving DecidableEq

/-- `GraniteSpeechProcessor._get_validated_text`.  A string is wrapped into a
singleton list.  For a list, Python evaluates `isinstance(text[0], str)`:
the empty list raises `IndexError` on `text[0]`; a list whose first element
is a string is returned unchanged (later elements are not inspected); any
other input raises `TypeError`. -/
def getValidatedText (t : PyText) : Except PyErr (List PyItem) :=
  match t with
  | .tstr s => .ok [.istr s]
  | .tlist [] => .error .indexError
  | .tlist (x :: xs) =>
    match x with
    | .istr _ => .ok (x :: xs)
    | _ => .error .typeError
  | _ => .error .typeError

/-- One element of a Python list passed as the processor's `audios` argument:
an audio clip tensor of shape `(1, L)` (modelled by its single row of raw
samples, as in the repository's tests), or a non-tensor value. -/
inductive AudioItem where
  | clip (row : List Rat)
  | notTensor
  deriving DecidableEq

/-- The processor's `audios` argument: a batch tensor (row-major 2-D, one row
of raw samples per clip), a Python list, or a non-tensor non-list value. -/
inductive AudiosArg where
  | tensor (rows : List (List Rat))
  | alist (items : List AudioItem)
  | notAudio
  deriving DecidableEq

/-- Helper for `_get_validated_audios`: the comprehension
`[audio.shape[-1] for audio in audios]` reads `.shape` of every element and
raises `AttributeError` at the first non-tensor. -/
def clipRows : List AudioItem → Except PyErr (List (List Rat))
  | [] => .ok []
  | .clip r :: rest =>
    match clipRows rest with
    | .ok rs => .ok (r :: rs)
    | .error e => .error e
  | .notTensor :: _ => .error .attributeError

/-- `GraniteSpeechProcessor._get_validated_audios`.  A tensor of shape
`(B, L)` yields lengths `[L] * B`.  A list is accepted when its first element
is a tensor (`audios[0]` raises `IndexError` on the empty list, and a
non-tensor first element raises `TypeError`); each clip is then padded on the
right with zero samples up to the maximum clip length (`F.pad(audio, (0,
pad))`) and the padded clips are concatenated along dim 0, while the true
lengths are kept. -/
def getValidatedAudios : AudiosArg → Except PyErr (List (List Rat) × List Nat)
  | .tensor rows => .ok (rows, List.replicate rows.length (rows.headD []).length)
  | .alist [] => .error .indexError
  | .alist (.notTensor :: _) => .error .typeError
  | .alist (.clip r :: rest) =>
    match clipRows (.clip r :: rest) with
    | .error e => .error e
    | .ok rows =>
      let lengths := rows.map List.length
      let mx := lengths.foldl max 0
      let padded := rows.map (fun c => c ++ List.replicate (mx - c.length) 0)
      .ok (padded, lengths)
  | .notAudio => .error .typeError

/-- The per-sample maximum of a log-mel sample (`logmel.amax(dim=(-2,-1))`).
Samples entering this operation are non-empty in every actual call. -/
def sampleMax (s : List (List Rat)) : Rat :=
  s.flatten.foldl max (s.flatten.headD 0)

/-- The per-sample dynamic-range normalization of
`GraniteSpeechFeatureExtractor.__call__`:
`torch.maximum(logmel, mx - 8.0).div_(4).add_(1)` with `mx` the per-sample
maximum. -/
def dynamicRangeNorm (s : List (List Rat)) : List (List Rat) :=
  s.map (fun row => row.map (fun v => max v (sampleMax s - 8) / 4 + 1))

/-- Fuel-driven row chunking; `chunkList` instantiates the fuel so that it
never runs out for a positive chunk width. -/
def chunkF (n : Nat) : Nat → List Rat → List (List Rat)
  | 0, _ => []
  | _, [] => []
  | fuel + 1, l@(_ :: _) => l.take n :: chunkF n fuel (l.drop n)

/-- Row-major regrouping of a flat list into rows of width `n`, the effect of
`Tensor.reshape(B, -1, n)` on one sample of a contiguous tensor. -/
def chunkList (n : Nat) (l : List Rat) : List (List Rat) := chunkF n l.length l

/-- The truncate-and-stack stage of `GraniteSpeechFeatureExtractor.__call__`:
`if logmel.shape[1] % 2 == 1: logmel = logmel[:, :-1]` followed by
`logmel.reshape(B, -1, 2 * logmel.shape[-1])`, on a batch `B × time × mel`. -/
def stackStage (batch : List (List (List Rat))) : List (List (List Rat)) :=
  let t := (batch.headD []).length
  let m := ((batch.headD []).headD []).length
  let batch' := if t % 2 = 1 then batch.map (fun s => s.take (t - 1)) else batch
  batch'.map (fun s => chunkList (2 * m) s.flatten)

/-- `mel.transpose(-1, -2)` on one sample (mel-bands × time ↦ time ×
mel-bands), for rectangular samples. -/
def transposeLL (x : List (List Rat)) : List (List Rat) :=
  (List.range (x.headD []).length).map (fun t => x.map (fun row => row.getD t 0))

/-- A raw-audio batch tensor carrying its device tag. -/
structure RawBatch where
  rows : List (List Rat)
  device : String

/-- A feature tensor carrying its device tag. -/
structure FeatResult where
  data : List (List (List Rat))
  device : String

/-- `GraniteSpeechFeatureExtractor.__call__`.  The torchaudio mel-spectrogram
transform (`melspec`, producing batch × mel × time) and `log10` are external
collaborators passed as parameters.  When a device is given, the input is
moved to it (`x.to(device)`); values are clipped at `1e-10` before the
logarithm; normalization, truncation and stacking act as in the source; and
the result is moved back to the CPU when its device is not already `"cpu"`
(`x.detach().cpu()`). -/
def featureCall (melspec : List (List Rat) → List (List (List Rat)))
    (log10 : Rat → Rat) (x : RawBatch) (device : Option String) : FeatResult :=
  let dev := match device with
    | some d => d
    | none => x.device
  let mel := melspec x.rows
  let logmel := mel.map (fun s =>
    (transposeLL s).map (List.map (fun v => log10 (max v (1 / 10000000000)))))
  let normed := logmel.map dynamicRangeNorm
  let stacked := stackStage normed
  if dev ≠ "cpu" then { data := stacked, device := "cpu" }
  else { data := stacked, device := dev }

/-- Adjacent pairwise concatenation of time-step rows: the shape-level effect
of the reshape-based frame stacking on an even number of equal-width rows. -/
def pairJoin : List (List Rat) → List (List Rat)
  | [] => []
  | [_] => []
  | r1 :: r2 :: rest => (r1 ++ r2) :: pairJoin rest

/-- Python `s.find(pat)` on character lists: the least index at which `pat`
occurs in `s`, if any. -/
def findFirst (pat : List Char) : List Char → Option Nat
  | [] => if pat = [] then some 0 else none
  | s@(_ :: rest) =>
    if s.take pat.length = pat then some 0
    else (findFirst pat rest).map (· + 1)

/-- `pat` occurs in `s` at position `p`. -/
def MatchAt (pat s : List Char) (p : Nat) : Prop :=
  (s.drop p).take pat.length = pat

/-- Python `s.replace(pat, rep, 1)`: replace the leftmost occurrence of `pat`
in `s` by `rep`, if there is one. -/
def replaceFirst (s pat rep : List Char) : List Char :=
  match findFirst pat s with
  | none => s
  | some i => s.take i ++ rep ++ s.drop (i + pat.length)

/-- Fuel-driven greedy occurrence count; `countOcc` supplies enough fuel. -/
def countOccF (pat : List Char) : Nat → List Char → Nat
  | 0, _ => 0
  | fuel + 1, s =>
    match findFirst pat s with
    | none => 0
    | some i =>
      if pat.isEmpty then s.length + 1
      else 1 + countOccF pat fuel (s.drop (i + pat.length))

/-- Python `s.count(pat)`: greedy left-to-right count of non-overlapping
occurrences (for the empty pattern Python returns `len(s) + 1`). -/
def countOcc (pat s : List Char) : Nat := countOccF pat (s.length + 1) s

/-- Fuel-driven greedy replace-all; `replaceAll` supplies enough fuel. -/
def replaceAllF (pat rep : List Char) : Nat → List Char → List Char
  | 0, s => s
  | fuel + 1, s =>
    match findFirst pat s with
    | none => s
    | some i =>
      if pat.isEmpty then s
      else s.take i ++ rep ++ replaceAllF pat rep fuel (s.drop (i + pat.length))

/-- Python `s.replace(pat, rep)` for a non-empty `pat` (the source only calls
it with the fixed literal `"<placeholder>"`): greedy left-to-right
replacement of non-overlapping occurrences. -/
def replaceAll (pat rep s : List Char) : List Char :=
  replaceAllF pat rep (s.length + 1) s

/-- Fuel-driven greedy decomposition; `parts` supplies enough fuel. -/
def partsF (pat : List Char) : Nat → List Char → List (List Char)
  | 0, s => [s]
  | fuel + 1, s =>
    match findFirst pat s with
    | none => [s]
    | some i =>
      if pat.isEmpty then [s]
      else s.take i :: partsF pat fuel (s.drop (i + pat.length))

/-- The greedy decomposition of `s` along non-overlapping occurrences of
`pat`: `s = q0 ++ pat ++ q1 ++ ... ++ pat ++ qN` with the occurrences being
exactly the ones Python's greedy scan visits. -/
def parts (pat s : List Char) : List (List Char) := partsF pat (s.length + 1) s

/-- `x` repeated `n` times, i.e. Python's `x * n` on strings. -/
def runRep (x : List Char) : Nat → List Char
  | 0 => []
  | n + 1 => x ++ runRep x n

/-- The literal `"<placeholder>"` hard-coded in
`_expand_audio_placeholders`. -/
def marker : List Char := "<placeholder>".toList

/-- The default audio placeholder token `"<|audio|>"`. -/
def defaultAudioToken : List Char := "<|audio|>".toList

/-- Interleave the pieces `qs` with runs of `x`:
`q0 ++ x^f1 ++ q1 ++ x^f2 ++ ...` (meaningful when
`qs.length = fs.length + 1`). -/
def assemble (x : List Char) : List (List Char) → List Nat → List Char
  | [], _ => []
  | q :: _, [] => q
  | q :: qs, f :: fs => q ++ runRep x f ++ assemble x qs fs

/-- The `while self.audio_token in sample` loop of
`_expand_audio_placeholders`: while the token occurs in the sample, replace
its leftmost occurrence by `"<placeholder>" * num_audio_features[i]` and step
`i`; indexing past the end of the feature list raises `IndexError`. -/
def loopRun (tok : List Char) : List Nat → List Char → Except PyErr (List Char × List Nat)
  | [], s =>
    if (findFirst tok s).isSome then .error .indexError
    else .ok (s, [])
  | f :: fs, s =>
    if (findFirst tok s).isSome then
      loopRun tok fs (replaceFirst s tok (runRep marker f))
    else .ok (s, f :: fs)

/-- The `for sample in text` loop of `_expand_audio_placeholders`, threading
the shared feature-count cursor across prompts. -/
def expandAll (tok : List Char) : List (List Char) → List Nat → Except PyErr (List (List Char) × List Nat)
  | [], fs => .ok ([], fs)
  | s :: rest, fs =>
    match loopRun tok fs s with
    | .error e => .error e
    | .ok (s', fs') =>
      match expandAll tok rest fs' with
      | .error e => .error e
      | .ok (out, fs'') => .ok (s' :: out, fs'')

/-- `GraniteSpeechProcessor._expand_audio_placeholders`: run the per-prompt
loops, then replace every `"<placeholder>"` marker by the audio token. -/
def expandAudioPlaceholders (tok : List Char) (text : List (List Char))
    (numAudioFeatures : List Nat) : Except PyErr (List (List Char)) :=
  match expandAll tok text numAudioFeatures with
  | .error e => .error e
  | .ok (out, _) => .ok (out.map (fun s => replaceAll marker tok s))

/-- The intermediate (marker-bearing) form of the expansion: prompt by
prompt, each greedy token occurrence is replaced by a run of markers whose
length is the next feature count. -/
def expandMid (tok : List Char) : List (List Char) → List Nat → List (List Char)
  | [], _ => []
  | s :: rest, fs =>
    assemble marker (parts tok s) (fs.take (countOcc tok s)) ::
      expandMid tok rest (fs.drop (countOcc tok s))

/-- The expansion described by the spec: in each prompt, the `i`-th greedy
occurrence of the token (prompts in order, occurrences left to right) becomes
a run of `f_i` copies of the token. -/
def expandSpec (tok : List Char) : List (List Char) → List Nat → List (List Char)
  | [], _ => []
  | s :: rest, fs =>
    assemble tok (parts tok s) (fs.take (countOcc tok s)) ::
      expandSpec tok rest (fs.drop (countOcc tok s))

/-- Side conditions on an audio token under which the expansion behaves as
specified, all decidable and satisfied by the default token `"<|audio|>"`:
the token is non-empty, no longer than the marker, border-free (no nonempty
proper prefix piece of it equals its final piece of the same length), shares
no boundary pieces with the marker, and does not occur inside marker runs. -/
def GoodTok (tok : List Char) : Prop :=
  tok ≠ [] ∧
  tok.length ≤ marker.length ∧
  (∀ k, k < tok.length → 0 < k → tok.take (tok.length - k) ≠ tok.drop k) ∧
  (∀ k, k < tok.length → 0 < k → tok.drop (tok.length - k) ≠ tok.take k) ∧
  (∀ k, k < tok.length → 0 < k → marker.take (tok.length - k) ≠ tok.drop k) ∧
  (∀ k, k < tok.length → 0 < k → marker.drop (marker.length - k) ≠ tok.take k) ∧
  findFirst tok (marker ++ marker) = none

/-- The observable steps of `GraniteSpeechProcessor.__call__` that the error
ordering claims are about. -/
inductive Event where
  | featureExtraction
  | numFeatures (lengths : List Nat)
  | expansion
  | tokenize
  deriving DecidableEq

/-- Extract the strings of a validated prompt list while computing
`sum(t.count(audio_token) for t in text)`: Python's generator raises
`AttributeError` at the first element without a `.count` method (the modelled
non-string elements are integers). -/
def promptStrs : List PyItem → Except PyErr (List (List Char))
  | [] => .ok []
  | .istr s :: rest =>
    match promptStrs rest with
    | .ok ss => .ok (s :: ss)
    | .error e => .error e
  | .iint _ :: _ => .error .attributeError

/-- `GraniteSpeechProcessor.__call__`, with the injected feature extractor
abstracted: `g` stands for `self.feature_extractor._get_num_audio_features`
as invoked on the true audio lengths.  The returned event list records, in
order, which processing steps ran before the call returned or raised; the
tokenizer call is recorded as an event.  Mirrors the source order: assert
text, validate text, count audio tokens, validate audio, check the
clip/placeholder count match, extract features, compute per-clip feature
counts, expand placeholders, tokenize. -/
def processorCall (tok : List Char) (g : List Nat → List Nat) (text : PyText)
    (audios : Option AudiosArg) : List Event × Except PyErr (List (List Char)) :=
  if text = .tnone then ([], .error .assertionError)
  else
    match getValidatedText text with
    | .error e => ([], .error e)
    | .ok items =>
      match promptStrs items with
      | .error e => ([], .error e)
      | .ok strs =>
        let expected := (strs.map (countOcc tok)).sum
        match audios with
        | none =>
          if expected ≠ 0 then ([], .error .assertionError)
          else ([.tokenize], .ok strs)
        | some a =>
          match getValidatedAudios a with
          | .error e => ([], .error e)
          | .ok (_, lengths) =>
            if lengths.length ≠ expected then ([], .error .valueError)
            else
              match expandAudioPlaceholders tok strs (g lengths) with
              | .error e => ([.featureExtraction, .numFeatures lengths], .error e)
              | .ok out =>
                ([.featureExtraction, .numFeatures lengths, .expansion, .tokenize],
                  .ok out)

/-! ## Helper lemmas -/

theorem le_foldl_max {α : Type} [LinearOrder α] (l : List α) (a : α) :
    a ≤ l.foldl max a := by
  induction l generalizing a with
  | nil => exact le_refl a
  | cons b t ih => exact le_trans (le_max_left a b) (ih (max a b))

theorem mem_le_foldl_max {α : Type} [LinearOrder α] {x : α} (l : List α) (a : α)
    (hx : x ∈ l) : x ≤ l.foldl max a := by
  induction l generalizing a with
  | nil => cases hx
  | cons b t ih =>
    rcases List.mem_cons.mp hx with h | h
    · subst h
      exact le_trans (le_max_right a x) (le_foldl_max t (max a x))
    · exact ih (max a b) h

/-! ## C1: the auxiliary frame-count operation -/

/-- Claim C1 (code bug): the processor invokes `_get_num_audio_features` on
the list of true per-clip lengths, but the source reads `logmel.shape[1]`, so
that invocation raises `AttributeError` instead of returning the per-clip
frame counts; the computation the spec (and the repository's tests) describe
yields `[90, 171]` for raw lengths `[142100, 269920]` with the default
parameters. -/
theorem getNumAudioFeatures_on_lengths_bug :
    getNumAudioFeatures 15 5 (.intList [142100, 269920]) = .error .attributeError ∧
    getNumAudioFeaturesSpec 160 15 5 [142100, 269920] = [90, 171] := by
  exact ⟨rfl, by decide⟩

/-! ## C9: the GraniteMoeHybrid configuration invariant -/

/-- Claim C9 counterexample: with `mamba_n_heads = 0` the product
`mamba_expand * hidden_size = 8192` is not divisible by `mamba_n_heads`, yet
the constructor raises `ZeroDivisionError` (from Python's `%`), not the value
error the claim promises. -/
theorem graniteMoeHybridConfigInit_zero_heads_cex :
    graniteMoeHybridConfigInit 4096 0 none 2 = .error .zeroDivisionError ∧
    ¬ ((0 : Nat) ∣ 2 * 4096) ∧
    (Except.error PyErr.zeroDivisionError : Except PyErr GraniteMoeHybridCfg) ≠
      .error .valueError := by
  refine ⟨rfl, by decide, by simp⟩

/-- Claim C9 (amended to positive `mamba_n_heads`): the constructor raises a
value error when `mamba_n_heads` does not divide `mamba_expand * hidden_size`
and, for an explicit `mamba_d_head`, when `mamba_d_head * mamba_n_heads`
differs from that product; every successfully constructed configuration
satisfies `mamba_d_head * mamba_n_heads = mamba_expand * hidden_size`. -/
theorem graniteMoeHybridConfigInit_invariant (hs nh e : Nat) (dh? : Option Nat)
    (hnh : 0 < nh) :
    (¬ nh ∣ e * hs → graniteMoeHybridConfigInit hs nh dh? e = .error .valueError) ∧
    (∀ dh, dh? = some dh → dh * nh ≠ e * hs →
      graniteMoeHybridConfigInit hs nh dh? e = .error .valueError) ∧
    (∀ cfg, graniteMoeHybridConfigInit hs nh dh? e = .ok cfg →
      cfg.mamba_d_head * cfg.mamba_n_heads = e * hs) := by
  have hnh' : nh ≠ 0 := Nat.pos_iff_ne_zero.mp hnh
  refine ⟨?_, ?_, ?_⟩
  · intro hdvd
    have hmod : e * hs % nh ≠ 0 := fun h => hdvd (Nat.dvd_of_mod_eq_zero h)
    simp [graniteMoeHybridConfigInit, hnh', hmod]
  · intro dh hdh hne
    subst hdh
    by_cases hmod : e * hs % nh = 0
    · simp [graniteMoeHybridConfigInit, hnh', hmod, hne]
    · simp [graniteMoeHybridConfigInit, hnh', hmod]
  · intro cfg hcfg
    by_cases hmod : e * hs % nh = 0
    · simp only [graniteMoeHybridConfigInit, if_neg hnh'] at hcfg
      rw [if_neg (not_not_intro hmod)] at hcfg
      by_cases hlast : dh?.getD (e * hs / nh) * nh ≠ e * hs
      · rw [if_pos hlast] at hcfg
        cases hcfg
      · rw [if_neg hlast] at hcfg
        cases hcfg
        simpa using hlast
    · simp [graniteMoeHybridConfigInit, hnh', hmod] at hcfg

/-- Witness for C9: a concrete successful construction reaching the
invariant. -/
theorem graniteMoeHybridConfigInit_invariant_witness :
    (0 : Nat) < 2 ∧
    graniteMoeHybridConfigInit 4 2 none 2 = .ok ⟨4, 2, 4, 2⟩ ∧
    (4 * 2 = 2 * 4) := by
  refine ⟨by decide, rfl, ?_⟩
  exact (graniteMoeHybridConfigInit_invariant 4 2 2 none (by decide)).2.2
    ⟨4, 2, 4, 2⟩ rfl

/-! ## C5: text validation -/

/-- Claim C5 counterexample: a list whose first element is a string but which
contains a non-string element is returned unchanged by
`_get_validated_text`, not rejected with a type error. -/
theorem getValidatedText_later_elements_cex :
    getValidatedText (.tlist [.istr "a".toList, .iint 424]) =
      .ok [.istr "a".toList, .iint 424] ∧
    (Except.ok [PyItem.istr "a".toList, .iint 424] : Except PyErr (List PyItem)) ≠
      .error .typeError := by
  exact ⟨rfl, by simp⟩

/-- Claim C5 (amended): `_get_validated_text` wraps a string into a singleton
list; returns any list whose first element is a string unchanged (later
elements are not inspected); raises `IndexError` on the empty list; and
raises `TypeError` on a list whose first element is not a string as well as
on non-string non-list inputs (including `None`). -/
theorem getValidatedText_characterization (t : PyText) :
    (∀ s, t = .tstr s → getValidatedText t = .ok [.istr s]) ∧
    (t = .tlist [] → getValidatedText t = .error .indexError) ∧
    (∀ s xs, t = .tlist (.istr s :: xs) → getValidatedText t = .ok (.istr s :: xs)) ∧
    (∀ n xs, t = .tlist (.iint n :: xs) → getValidatedText t = .error .typeError) ∧
    (∀ n, t = .tint n → getValidatedText t = .error .typeError) ∧
    (t = .tnone → getValidatedText t = .error .typeError) := by
  refine ⟨?_, ?_, ?_, ?_, ?_, ?_⟩
  · intro s h; subst h; rfl
  · intro h; subst h; rfl
  · intro s xs h; subst h; rfl
  · intro n xs h; subst h; rfl
  · intro n h; subst h; rfl
  · intro h; subst h; rfl

/-- Witness for C5: concrete evaluations through the characterization. -/
theorem getValidatedText_characterization_witness :
    getValidatedText (.tstr "hi".toList) = .ok [.istr "hi".toList] :=
  (getValidatedText_characterization (.tstr "hi".toList)).1 _ rfl

/-! ## C7: dynamic-range normalization bounds -/

/-- Claim C7: after clamping below at the per-sample maximum minus 8,
dividing by 4 and adding 1, every value of the sample lies in
`[(max - 8)/4 + 1, max/4 + 1]`. -/
theorem dynamicRangeNorm_bounds (sample : List (List Rat)) (v : Rat)
    (hv : v ∈ (dynamicRangeNorm sample).flatten) :
    (sampleMax sample - 8) / 4 + 1 ≤ v ∧ v ≤ sampleMax sample / 4 + 1 := by
  rcases List.mem_flatten.mp hv with ⟨row', hrow', hvrow⟩
  rcases List.mem_map.mp hrow' with ⟨row, hrow, hrow'eq⟩
  subst hrow'eq
  rcases List.mem_map.mp hvrow with ⟨x, hx, hxv⟩
  subst hxv
  have hxmem : x ∈ sample.flatten := List.mem_flatten.mpr ⟨row, hrow, hx⟩
  have hxle : x ≤ sampleMax sample := mem_le_foldl_max _ _ hxmem
  constructor
  · have h1 : sampleMax sample - 8 ≤ max x (sampleMax sample - 8) := le_max_right _ _
    linarith
  · have h2 : max x (sampleMax sample - 8) ≤ sampleMax sample :=
      max_le hxle (by linarith)
    linarith

/-- Witness for C7: a concrete sample value with its bounds. -/
theorem dynamicRangeNorm_bounds_witness :
    (1 : Rat) ∈ (dynamicRangeNorm [[0]]).flatten ∧
    ((sampleMax [[0]] - 8) / 4 + 1 ≤ (1 : Rat) ∧
      (1 : Rat) ≤ sampleMax [[0]] / 4 + 1) := by
  have hmx : sampleMax [[0]] = 0 := by
    simp [sampleMax]
  have hval : dynamicRangeNorm [[0]] = [[1]] := by
    simp [dynamicRangeNorm, hmx]
  have hmem : (1 : Rat) ∈ (dynamicRangeNorm [[0]]).flatten := by
    rw [hval]; simp
  exact ⟨hmem, dynamicRangeNorm_bounds [[0]] 1 hmem⟩

/-! ## C8: the result lives on the CPU -/

/-- Claim C8: whatever the input batch, its device and the requested compute
device, the tensor returned by the feature extractor's `__call__` resides on
the host (CPU) device. -/
theorem featureCall_returns_cpu (melspec : List (List Rat) → List (List (List Rat)))
    (log10 : Rat → Rat) (x : RawBatch) (device : Option String) :
    (featureCall melspec log10 x device).device = "cpu" := by
  by_cases h : (match device with | some d => d | none => x.device) = "cpu"
  · simp [featureCall, h]
  · simp [featureCall, h]

/-! ## C6: odd truncation and frame stacking -/

theorem chunkF_fuel (n : Nat) (hn : 0 < n) :
    ∀ f f' (l : List Rat), l.length ≤ f → l.length ≤ f' → chunkF n f l = chunkF n f' l := by
  intro f
  induction f with
  | zero =>
    intro f' l hf _
    have hl : l = [] := List.eq_nil_of_length_eq_zero (Nat.le_zero.mp hf)
    subst hl
    cases f' <;> rfl
  | succ f ih =>
    intro f' l hf hf'
    cases l with
    | nil => cases f' <;> rfl
    | cons a t =>
      cases f' with
      | zero => simp at hf'
      | succ f'' =>
        simp only [chunkF]
        congr 1
        refine ih f'' ((a :: t).drop n) ?_ ?_
        · simp only [List.length_drop, List.length_cons]
          simp only [List.length_cons] at hf
          omega
        · simp only [List.length_drop, List.length_cons]
          simp only [List.length_cons] at hf'
          omega

theorem chunkList_cons (n : Nat) (hn : 0 < n) (a b : List Rat) (ha : a.length = n) :
    chunkList n (a ++ b) = a :: chunkList n b := by
  cases a with
  | nil => rw [List.length_nil] at ha; omega
  | cons x a' =>
    have hlen : ((x :: a') ++ b).length = (n - 1 + b.length) + 1 := by
      simp only [List.length_append, List.length_cons] at ha ⊢
      omega
    have h1 : chunkList n ((x :: a') ++ b) =
        chunkF n ((n - 1 + b.length) + 1) ((x :: a') ++ b) := by
      rw [chunkList, hlen]
    rw [h1]
    show ((x :: a') ++ b).take n :: chunkF n (n - 1 + b.length) (((x :: a') ++ b).drop n) = _
    rw [List.take_left' ha, List.drop_left' ha]
    congr 1
    exact chunkF_fuel n hn _ _ b (by omega) (le_refl _)

theorem pairJoin_length : ∀ rows : List (List Rat), (pairJoin rows).length = rows.length / 2
  | [] => rfl
  | [_] => by simp [pairJoin]
  | r1 :: r2 :: rest => by
    simp only [pairJoin, List.length_cons]
    rw [pairJoin_length rest]
    omega

theorem pairJoin_row_length (mW : Nat) :
    ∀ rows : List (List Rat), (∀ r ∈ rows, r.length = mW) →
      ∀ row ∈ pairJoin rows, row.length = 2 * mW
  | [] => by intro _ row hrow; simp [pairJoin] at hrow
  | [_] => by intro _ row hrow; simp [pairJoin] at hrow
  | r1 :: r2 :: rest => by
    intro hr row hrow
    simp only [pairJoin, List.mem_cons] at hrow
    rcases hrow with h | h
    · subst h
      rw [List.length_append, hr r1 (by simp), hr r2 (by simp)]
      omega
    · exact pairJoin_row_length mW rest
        (fun r hrm => hr r (List.mem_cons_of_mem _ (List.mem_cons_of_mem _ hrm))) row h

theorem chunk_pairJoin (m : Nat) (hm : 0 < m) :
    ∀ rows : List (List Rat), (∀ r ∈ rows, r.length = m) → rows.length % 2 = 0 →
      chunkList (2 * m) rows.flatten = pairJoin rows
  | [] => by intro _ _; rfl
  | [_] => by
    intro _ hpar
    simp at hpar
  | r1 :: r2 :: rest => by
    intro hr hpar
    have h1 : r1.length = m := hr r1 (by simp)
    have h2 : r2.length = m := hr r2 (by simp)
    have hflat : (r1 :: r2 :: rest).flatten = (r1 ++ r2) ++ rest.flatten := by
      simp [List.append_assoc]
    rw [hflat, chunkList_cons (2 * m) (by omega) _ _
      (by rw [List.length_append, h1, h2]; omega)]
    have hrec := chunk_pairJoin m hm rest
      (fun r hrm => hr r (List.mem_cons_of_mem _ (List.mem_cons_of_mem _ hrm)))
      (by simp only [List.length_cons] at hpar; omega)
    rw [hrec]
    rfl

/-- Claim C6: entering the stacking stage with a rectangular `B × t × m`
batch (`t, m > 0`), exactly the trailing time step is dropped when `t` is odd
and none otherwise, and the stacked output has time dimension `t / 2` with
each output step the concatenation of two adjacent input steps (width
`2 * m`). -/
theorem stackStage_pairs (batch : List (List (List Rat))) (t mW : Nat)
    (hb : batch ≠ []) (ht0 : 0 < t) (hmW : 0 < mW)
    (ht : ∀ s ∈ batch, s.length = t)
    (hm : ∀ s ∈ batch, ∀ r ∈ s, r.length = mW) :
    stackStage batch = batch.map (fun s => pairJoin (s.take (2 * (t / 2)))) ∧
    ∀ s' ∈ stackStage batch, s'.length = t / 2 ∧ ∀ row ∈ s', row.length = 2 * mW := by
  have hhead : batch.headD [] ∈ batch := by
    cases batch with
    | nil => exact absurd rfl hb
    | cons s0 btl => exact List.mem_cons_self _ _
  have hheadt : (batch.headD []).length = t := ht _ hhead
  have hheadrow : (batch.headD []).headD [] ∈ batch.headD [] := by
    have hne : (batch.headD []).length ≠ 0 := by rw [hheadt]; omega
    cases hcase : batch.headD [] with
    | nil => rw [hcase] at hne; simp at hne
    | cons r0 rtl => exact List.mem_cons_self _ _
  have hheadm : ((batch.headD []).headD []).length = mW := hm _ hhead _ hheadrow
  have hsample : ∀ s ∈ batch,
      chunkList (2 * mW) (s.take (2 * (t / 2))).flatten = pairJoin (s.take (2 * (t / 2))) := by
    intro s hs
    apply chunk_pairJoin mW hmW
    · intro r hr
      exact hm s hs r (List.take_subset _ _ hr)
    · rw [List.length_take, ht s hs]
      omega
  have hmain : stackStage batch = batch.map (fun s => pairJoin (s.take (2 * (t / 2)))) := by
    simp only [stackStage]
    rw [hheadt, hheadm]
    by_cases hodd : t % 2 = 1
    · rw [if_pos hodd]
      rw [List.map_map]
      apply List.map_congr_left
      intro s hs
      have htake : t - 1 = 2 * (t / 2) := by omega
      simp only [Function.comp]
      rw [htake]
      exact hsample s hs
    · rw [if_neg hodd]
      apply List.map_congr_left
      intro s hs
      have hfull : s.take (2 * (t / 2)) = s := by
        have h2 : 2 * (t / 2) = t := by omega
        rw [h2, ← ht s hs]
        exact List.take_length s
      have := hsample s hs
      rw [hfull] at this
      rw [this, hfull]
  refine ⟨hmain, ?_⟩
  intro s' hs'
  rw [hmain] at hs'
  rcases List.mem_map.mp hs' with ⟨s, hs, rfl⟩
  have hrowlen : ∀ r ∈ s.take (2 * (t / 2)), r.length = mW :=
    fun r hr => hm s hs r (List.take_subset _ _ hr)
  have hlen : (s.take (2 * (t / 2))).length = 2 * (t / 2) := by
    rw [List.length_take, ht s hs]
    omega
  constructor
  · rw [pairJoin_length, hlen]
    omega
  · exact pairJoin_row_length mW _ hrowlen

/-- Witness for C6: a concrete `1 × 2 × 2` batch stacked into `1 × 1 × 4`. -/
theorem stackStage_pairs_witness :
    stackStage [[[(0 : Rat), 0], [0, 0]]] =
      [[[(0 : Rat), 0], [0, 0]]].map (fun s => pairJoin (s.take (2 * (2 / 2)))) ∧
    stackStage [[[(0 : Rat), 0], [0, 0]]] = [[[(0 : Rat), 0, 0, 0]]] := by
  have h := stackStage_pairs [[[(0 : Rat), 0], [0, 0]]] 2 2 (by simp) (by omega) (by omega)
    (by intro s hs; simp at hs; subst hs; rfl)
    (by
      intro s hs r hr
      simp at hs
      subst hs
      simp at hr
      subst hr
      rfl)
  refine ⟨h.1, ?_⟩
  rw [h.1]
  rfl

/-! ## C3: clip/placeholder count mismatch fails before any computation -/

/-- Claim C3: when audio is supplied and the number of validated clips
differs from the total placeholder count of the validated prompts, the
processor call raises a value error, and its event trace is empty — no
feature extraction, frame counting, placeholder expansion or tokenization has
taken place. -/
theorem processorCall_mismatch_valueError (tok : List Char) (g : List Nat → List Nat)
    (text : PyText) (a : AudiosArg) (items : List PyItem) (strs : List (List Char))
    (batch : List (List Rat)) (lengths : List Nat)
    (htext : text ≠ .tnone)
    (hval : getValidatedText text = .ok items)
    (hstrs : promptStrs items = .ok strs)
    (haud : getValidatedAudios a = .ok (batch, lengths))
    (hcnt : lengths.length ≠ (strs.map (countOcc tok)).sum) :
    processorCall tok g text (some a) = ([], .error .valueError) := by
  simp only [processorCall, if_neg htext, hval, hstrs, haud]
  rw [if_pos hcnt]

/-- Witness for C3: a one-clip batch against a prompt with no placeholder. -/
theorem processorCall_mismatch_valueError_witness :
    (PyText.tstr "hello".toList ≠ .tnone) ∧
    processorCall defaultAudioToken (fun _ => []) (.tstr "hello".toList)
      (some (.tensor [[0]])) = ([], .error .valueError) := by
  refine ⟨by simp, ?_⟩
  exact processorCall_mismatch_valueError defaultAudioToken (fun _ => [])
    (.tstr "hello".toList) (.tensor [[0]]) [.istr "hello".toList] ["hello".toList]
    [[0]] [1] (by simp) rfl rfl rfl (by decide)

/-! ## C4: padding, concatenation, and true lengths -/

theorem clipRows_map (clips : List (List Rat)) :
    clipRows (clips.map AudioItem.clip) = .ok clips := by
  induction clips with
  | nil => rfl
  | cons c rest ih => simp [clipRows, ih]

/-- Claim C4: a non-empty list of clips is validated into the right-zero-padded
batch (every padded clip has the common maximum length) together with the
list of true unpadded lengths, and the processor hands exactly those true
lengths — not the padded length — to the frame-count computation. -/
theorem getValidatedAudios_pads_and_keeps_lengths (clips : List (List Rat))
    (hne : clips ≠ [])
    (tok : List Char) (g : List Nat → List Nat) (text : PyText)
    (items : List PyItem) (strs : List (List Char))
    (htext : text ≠ .tnone)
    (hval : getValidatedText text = .ok items)
    (hstrs : promptStrs items = .ok strs)
    (hcnt : (strs.map (countOcc tok)).sum = clips.length) :
    getValidatedAudios (.alist (clips.map .clip)) =
      .ok (clips.map (fun c =>
            c ++ List.replicate ((clips.map List.length).foldl max 0 - c.length) 0),
          clips.map List.length) ∧
    (∀ p ∈ clips.map (fun c =>
        c ++ List.replicate ((clips.map List.length).foldl max 0 - c.length) 0),
      p.length = (clips.map List.length).foldl max 0) ∧
    Event.numFeatures (clips.map List.length) ∈
      (processorCall tok g text (some (.alist (clips.map .clip)))).1 := by
  have h1 : getValidatedAudios (.alist (clips.map .clip)) =
      .ok (clips.map (fun c =>
            c ++ List.replicate ((clips.map List.length).foldl max 0 - c.length) 0),
          clips.map List.length) := by
    cases clips with
    | nil => exact absurd rfl hne
    | cons c rest =>
      have hcr := clipRows_map (c :: rest)
      simp only [List.map_cons] at hcr ⊢
      simp [getValidatedAudios, hcr]
  refine ⟨h1, ?_, ?_⟩
  · intro p hp
    rcases List.mem_map.mp hp with ⟨c, hc, rfl⟩
    have hle : c.length ≤ (clips.map List.length).foldl max 0 :=
      mem_le_foldl_max _ _ (List.mem_map.mpr ⟨c, hc, rfl⟩)
    rw [List.length_append, List.length_replicate]
    omega
  · simp only [processorCall, if_neg htext, hval, hstrs, h1]
    rw [if_neg (not_not_intro (by rw [List.length_map, hcnt]))]
    cases hexp : expandAudioPlaceholders tok strs (g (clips.map List.length)) with
    | error e => simp [hexp]
    | ok out => simp [hexp]

/-- Witness for C4: two clips of lengths 1 and 2 padded to length 2, with the
true lengths `[1, 2]` reaching the frame-count call. -/
theorem getValidatedAudios_pads_witness :
    getValidatedAudios (.alist ([[(2 : Rat)], [3, 5]].map .clip)) =
      .ok ([[(2 : Rat), 0], [3, 5]], [1, 2]) ∧
    Event.numFeatures [1, 2] ∈
      (processorCall defaultAudioToken (fun ls => ls.map (fun _ => 1))
        (.tstr "<|audio|><|audio|>".toList)
        (some (.alist ([[(2 : Rat)], [3, 5]].map .clip)))).1 := by
  have h := getValidatedAudios_pads_and_keeps_lengths [[(2 : Rat)], [3, 5]] (by simp)
    defaultAudioToken (fun ls => ls.map (fun _ => 1)) (.tstr "<|audio|><|audio|>".toList)
    [.istr "<|audio|><|audio|>".toList] ["<|audio|><|audio|>".toList]
    (by simp) rfl rfl (by decide)
  refine ⟨?_, h.2.2⟩
  rw [h.1]
  rfl

/-! ## String matching theory for the placeholder expansion (C2, C10) -/

theorem matchAt_nil {pat : List Char} {p : Nat} (h : MatchAt pat [] p) : pat = [] := by
  unfold MatchAt at h
  simpa using h.symm

theorem matchAt_length_le {pat s : List Char} {p : Nat} (hp : pat ≠ [])
    (h : MatchAt pat s p) : p + pat.length ≤ s.length := by
  unfold MatchAt at h
  have hlen := congrArg List.length h
  rw [List.length_take, List.length_drop] at hlen
  have h0 : 0 < pat.length := List.length_pos.mpr hp
  omega

theorem matchAt_succ (pat : List Char) (c : Char) (s : List Char) (p : Nat) :
    MatchAt pat (c :: s) (p + 1) ↔ MatchAt pat s p := by
  unfold MatchAt
  rw [List.drop_succ_cons]

theorem matchAt_zero_iff (pat s : List Char) :
    MatchAt pat s 0 ↔ s.take pat.length = pat := by
  unfold MatchAt
  rw [List.drop_zero]

theorem findFirst_none_iff (pat s : List Char) :
    findFirst pat s = none ↔ ∀ p, ¬ MatchAt pat s p := by
  induction s with
  | nil =>
    constructor
    · intro h p hm
      have hpat : pat = [] := matchAt_nil hm
      rw [findFirst, if_pos hpat] at h
      cases h
    · intro h
      by_cases hp : pat = []
      · exact absurd (show MatchAt pat [] 0 by simp [MatchAt, hp]) (h 0)
      · rw [findFirst, if_neg hp]
  | cons c rest ih =>
    constructor
    · intro h p hm
      rw [findFirst] at h
      by_cases hc : (c :: rest).take pat.length = pat
      · rw [if_pos hc] at h
        cases h
      · rw [if_neg hc] at h
        have hrest : findFirst pat rest = none := by
          cases hfr : findFirst pat rest with
          | none => rfl
          | some i => rw [hfr] at h; cases h
        cases p with
        | zero => exact hc ((matchAt_zero_iff ..).mp hm)
        | succ p' => exact (ih.mp hrest) p' ((matchAt_succ ..).mp hm)
    · intro h
      rw [findFirst]
      have hc : ¬ ((c :: rest).take pat.length = pat) :=
        fun hceq => h 0 ((matchAt_zero_iff ..).mpr hceq)
      rw [if_neg hc]
      have hrest : findFirst pat rest = none :=
        ih.mpr (fun p hm => h (p + 1) ((matchAt_succ ..).mpr hm))
      rw [hrest]
      rfl

theorem findFirst_some_iff (pat s : List Char) (i : Nat) :
    findFirst pat s = some i ↔ MatchAt pat s i ∧ ∀ j, j < i → ¬ MatchAt pat s j := by
  induction s generalizing i with
  | nil =>
    by_cases hp : pat = []
    · rw [findFirst, if_pos hp]
      constructor
      · intro h
        obtain rfl : i = 0 := by
          cases h
          rfl
        exact ⟨by simp [MatchAt, hp], fun j hj => by omega⟩
      · rintro ⟨hm, hmin⟩
        cases i with
        | zero => rfl
        | succ i' =>
          exact absurd (show MatchAt pat [] 0 by simp [MatchAt, hp])
            (hmin 0 (Nat.succ_pos i'))
    · rw [findFirst, if_neg hp]
      constructor
      · intro h
        cases h
      · rintro ⟨hm, _⟩
        exact absurd (matchAt_nil hm) hp
  | cons c rest ih =>
    rw [findFirst]
    by_cases hc : (c :: rest).take pat.length = pat
    · rw [if_pos hc]
      constructor
      · intro h
        obtain rfl : i = 0 := by
          cases h
          rfl
        exact ⟨(matchAt_zero_iff ..).mpr hc, fun j hj => by omega⟩
      · rintro ⟨hm, hmin⟩
        cases i with
        | zero => rfl
        | succ i' =>
          exact absurd ((matchAt_zero_iff ..).mpr hc) (hmin 0 (Nat.succ_pos i'))
    · rw [if_neg hc]
      cases i with
      | zero =>
        constructor
        · intro h
          cases hfr : findFirst pat rest with
          | none => rw [hfr] at h; cases h
          | some k => rw [hfr] at h; simp at h
        · rintro ⟨hm, _⟩
          exact absurd ((matchAt_zero_iff ..).mp hm) hc
      | succ i' =>
        constructor
        · intro h
          have hfr : findFirst pat rest = some i' := by
            cases hfr : findFirst pat rest with
            | none => rw [hfr] at h; cases h
            | some k =>
              rw [hfr] at h
              simp at h
              rw [h]
          obtain ⟨hm', hmin'⟩ := (ih i').mp hfr
          refine ⟨(matchAt_succ ..).mpr hm', ?_⟩
          intro j hj
          cases j with
          | zero => exact fun hm0 => hc ((matchAt_zero_iff ..).mp hm0)
          | succ j' =>
            exact fun hmj => hmin' j' (by omega) ((matchAt_succ ..).mp hmj)
        · rintro ⟨hm, hmin⟩
          have hm' : MatchAt pat rest i' := (matchAt_succ ..).mp hm
          have hmin' : ∀ j, j < i' → ¬ MatchAt pat rest j := fun j hj hmj =>
            hmin (j + 1) (by omega) ((matchAt_succ ..).mpr hmj)
          rw [(ih i').mpr ⟨hm', hmin'⟩]
          rfl

theorem findFirst_some_matchAt {pat s : List Char} {i : Nat}
    (h : findFirst pat s = some i) : MatchAt pat s i :=
  ((findFirst_some_iff ..).mp h).1

theorem findFirst_some_min {pat s : List Char} {i : Nat}
    (h : findFirst pat s = some i) : ∀ j, j < i → ¬ MatchAt pat s j :=
  ((findFirst_some_iff ..).mp h).2

theorem findFirst_some_le {pat s : List Char} {i : Nat} (hp : pat ≠ [])
    (h : findFirst pat s = some i) : i + pat.length ≤ s.length :=
  matchAt_length_le hp (findFirst_some_matchAt h)

theorem findFirst_front {pat s : List Char} (h : s.take pat.length = pat) :
    findFirst pat s = some 0 :=
  (findFirst_some_iff ..).mpr ⟨(matchAt_zero_iff ..).mpr h, fun j hj => by omega⟩

theorem matchAt_decomp {pat s : List Char} {p : Nat} (h : MatchAt pat s p) :
    s = s.take p ++ (pat ++ s.drop (p + pat.length)) := by
  unfold MatchAt at h
  conv_lhs => rw [← List.take_append_drop p s,
    ← List.take_append_drop pat.length (s.drop p)]
  rw [h, List.drop_drop]

theorem matchAt_append_right (pat a b : List Char) (p : Nat) (h : MatchAt pat b p) :
    MatchAt pat (a ++ b) (a.length + p) := by
  unfold MatchAt at h ⊢
  rw [← List.drop_drop, List.drop_left]
  exact h

theorem matchAt_append_left {pat a : List Char} (b : List Char) {p : Nat}
    (h : MatchAt pat a p) : MatchAt pat (a ++ b) p := by
  by_cases hp : pat = []
  · subst hp
    simp [MatchAt]
  · have hle := matchAt_length_le hp h
    unfold MatchAt at h ⊢
    rw [List.drop_append_eq_append_drop, Nat.sub_eq_zero_of_le (by omega), List.drop_zero,
      List.take_append_eq_append_take, h,
      show pat.length - (a.drop p).length = 0 by rw [List.length_drop]; omega,
      List.take_zero, List.append_nil]

theorem matchAt_append_cases {pat a b : List Char} {p : Nat} (hp : pat ≠ [])
    (h : MatchAt pat (a ++ b) p) :
    (MatchAt pat a p ∧ p + pat.length ≤ a.length) ∨
    (a.length ≤ p ∧ MatchAt pat b (p - a.length)) ∨
    (p < a.length ∧ a.length < p + pat.length ∧
      ∃ u v, pat = u ++ v ∧ u ≠ [] ∧ v ≠ [] ∧
        a.drop (a.length - u.length) = u ∧ b.take v.length = v) := by
  have hlen := matchAt_length_le hp h
  rw [List.length_append] at hlen
  by_cases h1 : a.length ≤ p
  · refine Or.inr (Or.inl ⟨h1, ?_⟩)
    unfold MatchAt at h ⊢
    rw [show p = a.length + (p - a.length) by omega, ← List.drop_drop,
      List.drop_left] at h
    exact h
  · push_neg at h1
    by_cases h2 : p + pat.length ≤ a.length
    · refine Or.inl ⟨?_, h2⟩
      unfold MatchAt at h ⊢
      rw [List.drop_append_eq_append_drop, Nat.sub_eq_zero_of_le (by omega),
        List.drop_zero, List.take_append_eq_append_take] at h
      rw [show pat.length - (a.drop p).length = 0 by rw [List.length_drop]; omega,
        List.take_zero, List.append_nil] at h
      exact h
    · push_neg at h2
      unfold MatchAt at h
      rw [List.drop_append_eq_append_drop, Nat.sub_eq_zero_of_le (by omega),
        List.drop_zero, List.take_append_eq_append_take] at h
      have htk : (a.drop p).take pat.length = a.drop p :=
        List.take_of_length_le (by rw [List.length_drop]; omega)
      rw [htk] at h
      refine Or.inr (Or.inr ⟨h1, h2, a.drop p,
        b.take (pat.length - (a.drop p).length), h.symm, ?_, ?_, ?_, ?_⟩)
      · apply List.ne_nil_of_length_pos
        rw [List.length_drop]
        omega
      · apply List.ne_nil_of_length_pos
        rw [List.length_take, List.length_drop]
        omega
      · congr 1
        rw [List.length_drop]
        omega
      · rw [List.length_take]
        congr 1
        rw [List.length_drop]
        omega

theorem findFirst_append_shift {pat : List Char} (a t : List Char) (hp : pat ≠ [])
    (h1 : ∀ p, ¬ MatchAt pat a p)
    (h2 : ∀ u v, pat = u ++ v → u ≠ [] → v ≠ [] → a.drop (a.length - u.length) = u →
      ¬ t.take v.length = v) :
    findFirst pat (a ++ t) = (findFirst pat t).map (· + a.length) := by
  cases hft : findFirst pat t with
  | none =>
    show findFirst pat (a ++ t) = none
    apply (findFirst_none_iff ..).mpr
    intro p hm
    rcases matchAt_append_cases hp hm with ⟨hma, _⟩ | ⟨_, hmb⟩ |
      ⟨_, _, u, v, hsplit, hu, hv, hua, hvt⟩
    · exact h1 p hma
    · exact (findFirst_none_iff ..).mp hft _ hmb
    · exact h2 u v hsplit hu hv hua hvt
  | some i =>
    show findFirst pat (a ++ t) = some (i + a.length)
    apply (findFirst_some_iff ..).mpr
    constructor
    · have h' := matchAt_append_right pat a t i (findFirst_some_matchAt hft)
      rwa [Nat.add_comm] at h'
    · intro j hj hm
      rcases matchAt_append_cases hp hm with ⟨hma, _⟩ | ⟨hle, hmb⟩ |
        ⟨_, _, u, v, hsplit, hu, hv, hua, hvt⟩
      · exact h1 j hma
      · exact findFirst_some_min hft (j - a.length) (by omega) hmb
      · exact h2 u v hsplit hu hv hua hvt

theorem runRep_length (x : List Char) : ∀ n, (runRep x n).length = n * x.length
  | 0 => by simp [runRep]
  | n + 1 => by
    show (x ++ runRep x n).length = (n + 1) * x.length
    rw [List.length_append, runRep_length x n, Nat.succ_mul]
    omega

theorem runRep_succ_right (x : List Char) : ∀ n, runRep x (n + 1) = runRep x n ++ x
  | 0 => by simp [runRep]
  | n + 1 => by
    show x ++ runRep x (n + 1) = (x ++ runRep x n) ++ x
    rw [runRep_succ_right x n, List.append_assoc]

theorem take_front_of_append {a b v : List Char} (hv : v.length ≤ a.length)
    (h : (a ++ b).take v.length = v) : a.take v.length = v := by
  rw [List.take_append_eq_append_take, Nat.sub_eq_zero_of_le hv, List.take_zero,
    List.append_nil] at h
  exact h

theorem front_of_runRep {x v : List Char} {f : Nat} (hf : 1 ≤ f)
    (hv : v.length ≤ x.length) (h : (runRep x f).take v.length = v) :
    x.take v.length = v := by
  obtain ⟨f', rfl⟩ : ∃ f', f = f' + 1 := ⟨f - 1, by omega⟩
  rw [show runRep x (f' + 1) = x ++ runRep x f' from rfl] at h
  exact take_front_of_append hv h

theorem drop_end_of_append {a b u : List Char} (hu : u.length ≤ b.length)
    (h : (a ++ b).drop ((a ++ b).length - u.length) = u) :
    b.drop (b.length - u.length) = u := by
  rw [List.length_append,
    show a.length + b.length - u.length = a.length + (b.length - u.length) by omega,
    ← List.drop_drop, List.drop_left] at h
  exact h

theorem end_of_runRep {x u : List Char} {f : Nat} (hf : 1 ≤ f)
    (hu : u.length ≤ x.length) (h : (runRep x f).drop ((runRep x f).length - u.length) = u) :
    x.drop (x.length - u.length) = u := by
  obtain ⟨f', rfl⟩ : ∃ f', f = f' + 1 := ⟨f - 1, by omega⟩
  rw [runRep_succ_right] at h
  exact drop_end_of_append hu h

theorem matchAt_take_window {pat s : List Char} {p n : Nat}
    (h : MatchAt pat s p) (hn : p + pat.length ≤ n) : MatchAt pat (s.take n) p := by
  unfold MatchAt at h ⊢
  rw [List.drop_take, List.take_take, Nat.min_eq_left (by omega)]
  exact h

theorem matchAt_of_take {pat s : List Char} {p n : Nat}
    (hp : pat ≠ []) (h : MatchAt pat (s.take n) p) : MatchAt pat s p := by
  have hle := matchAt_length_le hp h
  rw [List.length_take] at hle
  unfold MatchAt at h ⊢
  rw [List.drop_take, List.take_take, Nat.min_eq_left (by omega)] at h
  exact h

theorem matchAt_of_drop {pat s : List Char} {p d : Nat}
    (h : MatchAt pat (s.drop d) p) : MatchAt pat s (d + p) := by
  unfold MatchAt at h ⊢
  rw [← List.drop_drop]
  exact h

theorem not_matchAt_run {pat x : List Char} (hx : x ≠ [])
    (hlen : pat.length ≤ x.length + 1)
    (hxx : ∀ q, ¬ MatchAt pat (x ++ x) q) :
    ∀ k p, ¬ MatchAt pat (runRep x k) p
  | 0, p, hm => by
    have hpat := matchAt_nil hm
    exact hxx 0 (by simp [MatchAt, hpat])
  | 1, p, hm => by
    rw [show runRep x 1 = x by simp [runRep]] at hm
    exact hxx p (matchAt_append_left x hm)
  | (k + 2), p, hm => by
    have hx0 : 0 < x.length := List.length_pos.mpr hx
    by_cases hpx : x.length ≤ p
    · apply not_matchAt_run hx hlen hxx (k + 1) (p - x.length)
      unfold MatchAt at hm ⊢
      rw [show runRep x (k + 2) = x ++ runRep x (k + 1) from rfl,
        show p = x.length + (p - x.length) by omega, ← List.drop_drop,
        List.drop_left] at hm
      exact hm
    · push_neg at hpx
      apply hxx p
      have hpat : pat ≠ [] := by
        intro hpeq
        exact hxx 0 (by simp [MatchAt, hpeq])
      have htk : (runRep x (k + 2)).take (x.length + x.length) = x ++ x := by
        show (x ++ (x ++ runRep x k)).take (x.length + x.length) = x ++ x
        rw [List.take_append_eq_append_take, List.take_of_length_le (by omega),
          show x.length + x.length - x.length = x.length by omega,
          List.take_append_eq_append_take, List.take_length, Nat.sub_self,
          List.take_zero, List.append_nil]
      have hwin := matchAt_take_window hm (show p + pat.length ≤ x.length + x.length by omega)
      rwa [htk] at hwin

theorem countOccF_fuel {pat : List Char} (hp : pat ≠ []) :
    ∀ fuel fuel' s, s.length < fuel → s.length < fuel' →
      countOccF pat fuel s = countOccF pat fuel' s := by
  intro fuel
  induction fuel with
  | zero => intro fuel' s h _; omega
  | succ fuel ih =>
    intro fuel' s hf hf'
    cases fuel' with
    | zero => omega
    | succ fuel'' =>
      simp only [countOccF]
      cases hft : findFirst pat s with
      | none => rfl
      | some i =>
        have hemp : pat.isEmpty = false := by simp [List.isEmpty_iff, hp]
        simp only [hemp, Bool.false_eq_true, if_false]
        congr 1
        have hle := findFirst_some_le hp hft
        have h0 : 0 < pat.length := List.length_pos.mpr hp
        exact ih fuel'' _ (by rw [List.length_drop]; omega)
          (by rw [List.length_drop]; omega)

theorem countOcc_eq {pat : List Char} (hp : pat ≠ []) (s : List Char) :
    countOcc pat s = match findFirst pat s with
      | none => 0
      | some i => 1 + countOcc pat (s.drop (i + pat.length)) := by
  show countOccF pat (s.length + 1) s = _
  simp only [countOccF]
  cases hft : findFirst pat s with
  | none => rfl
  | some i =>
    have hemp : pat.isEmpty = false := by simp [List.isEmpty_iff, hp]
    simp only [hemp, Bool.false_eq_true, if_false]
    congr 1
    have hle := findFirst_some_le hp hft
    have h0 : 0 < pat.length := List.length_pos.mpr hp
    exact countOccF_fuel hp _ _ _ (by rw [List.length_drop]; omega)
      (by omega)

theorem countOcc_none {pat s : List Char} (hp : pat ≠ [])
    (h : findFirst pat s = none) : countOcc pat s = 0 := by
  rw [countOcc_eq hp, h]

theorem countOcc_some {pat s : List Char} {i : Nat} (hp : pat ≠ [])
    (h : findFirst pat s = some i) :
    countOcc pat s = 1 + countOcc pat (s.drop (i + pat.length)) := by
  rw [countOcc_eq hp, h]

theorem replaceAllF_fuel {pat rep : List Char} (hp : pat ≠ []) :
    ∀ fuel fuel' s, s.length < fuel → s.length < fuel' →
      replaceAllF pat rep fuel s = replaceAllF pat rep fuel' s := by
  intro fuel
  induction fuel with
  | zero => intro fuel' s h _; omega
  | succ fuel ih =>
    intro fuel' s hf hf'
    cases fuel' with
    | zero => omega
    | succ fuel'' =>
      simp only [replaceAllF]
      cases hft : findFirst pat s with
      | none => rfl
      | some i =>
        have hemp : pat.isEmpty = false := by simp [List.isEmpty_iff, hp]
        simp only [hemp, Bool.false_eq_true, if_false]
        have hle := findFirst_some_le hp hft
        have h0 : 0 < pat.length := List.length_pos.mpr hp
        rw [ih fuel'' _ (by rw [List.length_drop]; omega)
          (by rw [List.length_drop]; omega)]

theorem replaceAll_eq {pat : List Char} (hp : pat ≠ []) (rep s : List Char) :
    replaceAll pat rep s = match findFirst pat s with
      | none => s
      | some i => s.take i ++ rep ++ replaceAll pat rep (s.drop (i + pat.length)) := by
  show replaceAllF pat rep (s.length + 1) s = _
  simp only [replaceAllF]
  cases hft : findFirst pat s with
  | none => rfl
  | some i =>
    have hemp : pat.isEmpty = false := by simp [List.isEmpty_iff, hp]
    simp only [hemp, Bool.false_eq_true, if_false]
    have hle := findFirst_some_le hp hft
    have h0 : 0 < pat.length := List.length_pos.mpr hp
    rw [replaceAllF_fuel hp s.length ((s.drop (i + pat.length)).length + 1)
      (s.drop (i + pat.length)) (by rw [List.length_drop]; omega) (by omega)]
    rfl

theorem replaceAll_none {pat rep s : List Char} (hp : pat ≠ [])
    (h : findFirst pat s = none) : replaceAll pat rep s = s := by
  rw [replaceAll_eq hp, h]

theorem replaceAll_some {pat rep s : List Char} {i : Nat} (hp : pat ≠ [])
    (h : findFirst pat s = some i) :
    replaceAll pat rep s = s.take i ++ rep ++ replaceAll pat rep (s.drop (i + pat.length)) := by
  rw [replaceAll_eq hp, h]

theorem partsF_fuel {pat : List Char} (hp : pat ≠ []) :
    ∀ fuel fuel' s, s.length < fuel → s.length < fuel' →
      partsF pat fuel s = partsF pat fuel' s := by
  intro fuel
  induction fuel with
  | zero => intro fuel' s h _; omega
  | succ fuel ih =>
    intro fuel' s hf hf'
    cases fuel' with
    | zero => omega
    | succ fuel'' =>
      simp only [partsF]
      cases hft : findFirst pat s with
      | none => rfl
      | some i =>
        have hemp : pat.isEmpty = false := by simp [List.isEmpty_iff, hp]
        simp only [hemp, Bool.false_eq_true, if_false]
        have hle := findFirst_some_le hp hft
        have h0 : 0 < pat.length := List.length_pos.mpr hp
        rw [ih fuel'' _ (by rw [List.length_drop]; omega)
          (by rw [List.length_drop]; omega)]

theorem parts_eq {pat : List Char} (hp : pat ≠ []) (s : List Char) :
    parts pat s = match findFirst pat s with
      | none => [s]
      | some i => s.take i :: parts pat (s.drop (i + pat.length)) := by
  show partsF pat (s.length + 1) s = _
  simp only [partsF]
  cases hft : findFirst pat s with
  | none => rfl
  | some i =>
    have hemp : pat.isEmpty = false := by simp [List.isEmpty_iff, hp]
    simp only [hemp, Bool.false_eq_true, if_false]
    have hle := findFirst_some_le hp hft
    have h0 : 0 < pat.length := List.length_pos.mpr hp
    rw [partsF_fuel hp s.length ((s.drop (i + pat.length)).length + 1)
      (s.drop (i + pat.length)) (by rw [List.length_drop]; omega) (by omega)]
    rfl

theorem replaceFirst_shift {tok : List Char} (pre rep t : List Char)
    (hs : findFirst tok (pre ++ t) = (findFirst tok t).map (· + pre.length)) :
    replaceFirst (pre ++ t) tok rep = pre ++ replaceFirst t tok rep := by
  unfold replaceFirst
  cases hft : findFirst tok t with
  | none =>
    rw [hs, hft]
    rfl
  | some i =>
    rw [hs, hft]
    show (pre ++ t).take (i + pre.length) ++ rep ++
        (pre ++ t).drop (i + pre.length + tok.length) = _
    have htake : (pre ++ t).take (i + pre.length) = pre ++ t.take i := by
      rw [List.take_append_eq_append_take, List.take_of_length_le (by omega)]
      congr 2
      omega
    have hdrop : (pre ++ t).drop (i + pre.length + tok.length) =
        t.drop (i + tok.length) := by
      rw [show i + pre.length + tok.length = pre.length + (i + tok.length) by omega,
        ← List.drop_drop, List.drop_left]
    rw [htake, hdrop]
    simp [List.append_assoc]

theorem loopRun_no_match {tok s : List Char} (h : findFirst tok s = none)
    (fs : List Nat) : loopRun tok fs s = .ok (s, fs) := by
  cases fs <;> simp [loopRun, h]

theorem loopRun_shift (tok pre : List Char)
    (hs : ∀ t, findFirst tok (pre ++ t) = (findFirst tok t).map (· + pre.length)) :
    ∀ fs t, loopRun tok fs (pre ++ t) =
      (loopRun tok fs t).map (fun r => (pre ++ r.1, r.2)) := by
  intro fs
  induction fs with
  | nil =>
    intro t
    simp only [loopRun]
    rw [hs t]
    cases findFirst tok t <;> rfl
  | cons f fs ih =>
    intro t
    simp only [loopRun]
    rw [hs t]
    cases hft : findFirst tok t with
    | none => rfl
    | some i =>
      simp only [Option.map_some', Option.isSome_some, if_true]
      rw [replaceFirst_shift pre (runRep marker f) t (hs t)]
      exact ih (replaceFirst t tok (runRep marker f))

theorem shiftPre_q_run {tok : List Char} (hgt : GoodTok tok) (q : List Char) (f : Nat)
    (hq : ∀ p, ¬ MatchAt tok q p) (hf : 1 ≤ f) :
    ∀ t, findFirst tok ((q ++ runRep marker f) ++ t) =
      (findFirst tok t).map (· + (q ++ runRep marker f).length) := by
  obtain ⟨hne, hlenm, hbf1, hbf2, hmixa, hmixb, hwin⟩ := hgt
  have hmne : marker ≠ [] := by decide
  have hm0 : 0 < marker.length := by decide
  have htok0 : 0 < tok.length := List.length_pos.mpr hne
  intro t
  apply findFirst_append_shift _ _ hne
  · intro p hm
    rcases matchAt_append_cases hne hm with ⟨hma, _⟩ | ⟨_, hmb⟩ |
      ⟨_, _, u, v, hsplit, hu, hv, hua, hvt⟩
    · exact hq p hma
    · exact not_matchAt_run hmne (by omega)
        (fun q' => (findFirst_none_iff ..).mp hwin q') f _ hmb
    · have hu0 : 0 < u.length := List.length_pos.mpr hu
      have hv0 : 0 < v.length := List.length_pos.mpr hv
      have hlsplit : u.length + v.length = tok.length := by
        rw [hsplit, List.length_append]
      have hvm : marker.take v.length = v :=
        front_of_runRep hf (by omega) hvt
      have hvd : v = tok.drop u.length := by
        rw [hsplit, List.drop_left]
      apply hmixa u.length (by omega) hu0
      rw [show tok.length - u.length = v.length by omega, ← hvd]
      exact hvm
  · intro u v hsplit hu hv hend
    exfalso
    have hu0 : 0 < u.length := List.length_pos.mpr hu
    have hv0 : 0 < v.length := List.length_pos.mpr hv
    have hlsplit : u.length + v.length = tok.length := by
      rw [hsplit, List.length_append]
    have hrun : marker.length ≤ (runRep marker f).length := by
      rw [runRep_length]
      exact Nat.le_mul_of_pos_left _ (by omega)
    have hum : marker.drop (marker.length - u.length) = u := by
      apply end_of_runRep hf (by omega)
      exact drop_end_of_append (by omega) hend
    have hut : tok.take u.length = u := by
      rw [hsplit]
      exact List.take_left u v
    exact hmixb u.length (by omega) hu0 (hum.trans hut.symm)

theorem findFirst_shift_q_run {x : List Char} (hx : x ≠ [])
    (hbord : ∀ k, k < x.length → 0 < k → x.take (x.length - k) ≠ x.drop k)
    (q : List Char) (hq : ∀ p, ¬ MatchAt x q p) (f : Nat) (hf : 1 ≤ f)
    (A : List Char) :
    findFirst x (q ++ (runRep x f ++ A)) =
      (findFirst x (runRep x f ++ A)).map (· + q.length) := by
  have hx0 : 0 < x.length := List.length_pos.mpr hx
  apply findFirst_append_shift _ _ hx
  · exact hq
  · intro u v hsplit hu hv _ hvt
    have hu0 : 0 < u.length := List.length_pos.mpr hu
    have hv0 : 0 < v.length := List.length_pos.mpr hv
    have hlsplit : u.length + v.length = x.length := by
      rw [hsplit, List.length_append]
    have hrun : x.length ≤ (runRep x f).length := by
      rw [runRep_length]
      exact Nat.le_mul_of_pos_left _ (by omega)
    have hvx : x.take v.length = v := by
      apply front_of_runRep hf (by omega)
      exact take_front_of_append (by omega) hvt
    have hvd : v = x.drop u.length := by
      rw [hsplit, List.drop_left]
    apply hbord u.length (by omega) hu0
    rw [show x.length - u.length = v.length by omega, ← hvd]
    exact hvx

theorem parts_no_match_aux {pat : List Char} (hp : pat ≠ []) :
    ∀ n s, s.length ≤ n → ∀ q ∈ parts pat s, ∀ p, ¬ MatchAt pat q p := by
  intro n
  induction n with
  | zero =>
    intro s hs q hq p hm
    obtain rfl : s = [] := List.eq_nil_of_length_eq_zero (Nat.le_zero.mp hs)
    have hff : findFirst pat [] = none := by
      rw [findFirst, if_neg hp]
    rw [parts_eq hp, hff] at hq
    simp at hq
    subst hq
    exact hp (matchAt_nil hm)
  | succ n ih =>
    intro s hs q hq p hm
    rw [parts_eq hp] at hq
    cases hft : findFirst pat s with
    | none =>
      rw [hft] at hq
      simp at hq
      subst hq
      exact (findFirst_none_iff ..).mp hft p hm
    | some i =>
      rw [hft] at hq
      simp only [List.mem_cons] at hq
      have h0 : 0 < pat.length := List.length_pos.mpr hp
      have hle := findFirst_some_le hp hft
      rcases hq with rfl | hq'
      · have hm' := matchAt_of_take hp hm
        have hpl : p + pat.length ≤ i := by
          have := matchAt_length_le hp hm
          rw [List.length_take] at this
          omega
        exact findFirst_some_min hft p (by omega) hm'
      · exact ih (s.drop (i + pat.length)) (by rw [List.length_drop]; omega) q hq' p hm

theorem parts_no_match {pat : List Char} (hp : pat ≠ []) (s : List Char) :
    ∀ q ∈ parts pat s, ∀ p, ¬ MatchAt pat q p :=
  parts_no_match_aux hp s.length s (le_refl _)

theorem parts_other_free_aux {pat m' : List Char} (hp : pat ≠ []) (hm' : m' ≠ []) :
    ∀ n s, s.length ≤ n → findFirst m' s = none →
      ∀ q ∈ parts pat s, findFirst m' q = none := by
  intro n
  induction n with
  | zero =>
    intro s hs hfree q hq
    obtain rfl : s = [] := List.eq_nil_of_length_eq_zero (Nat.le_zero.mp hs)
    have hff : findFirst pat [] = none := by
      rw [findFirst, if_neg hp]
    rw [parts_eq hp, hff] at hq
    simp at hq
    subst hq
    exact hfree
  | succ n ih =>
    intro s hs hfree q hq
    rw [parts_eq hp] at hq
    cases hft : findFirst pat s with
    | none =>
      rw [hft] at hq
      simp at hq
      subst hq
      exact hfree
    | some i =>
      rw [hft] at hq
      simp only [List.mem_cons] at hq
      have h0 : 0 < pat.length := List.length_pos.mpr hp
      have hle := findFirst_some_le hp hft
      rcases hq with rfl | hq'
      · apply (findFirst_none_iff ..).mpr
        intro p hm
        exact (findFirst_none_iff ..).mp hfree p (matchAt_of_take hm' hm)
      · refine ih (s.drop (i + pat.length)) (by rw [List.length_drop]; omega) ?_ q hq'
        apply (findFirst_none_iff ..).mpr
        intro p hm
        exact (findFirst_none_iff ..).mp hfree _ (matchAt_of_drop hm)

theorem parts_other_free {pat m' : List Char} (hp : pat ≠ []) (hm' : m' ≠ [])
    (s : List Char) (hfree : findFirst m' s = none) :
    ∀ q ∈ parts pat s, findFirst m' q = none :=
  parts_other_free_aux hp hm' s.length s (le_refl _) hfree

theorem parts_length_aux {pat : List Char} (hp : pat ≠ []) :
    ∀ n s, s.length ≤ n → (parts pat s).length = countOcc pat s + 1 := by
  intro n
  induction n with
  | zero =>
    intro s hs
    obtain rfl : s = [] := List.eq_nil_of_length_eq_zero (Nat.le_zero.mp hs)
    have hff : findFirst pat [] = none := by
      rw [findFirst, if_neg hp]
    rw [parts_eq hp, hff, countOcc_none hp hff]
    rfl
  | succ n ih =>
    intro s hs
    cases hft : findFirst pat s with
    | none =>
      rw [parts_eq hp, hft, countOcc_none hp hft]
      rfl
    | some i =>
      have h0 : 0 < pat.length := List.length_pos.mpr hp
      have hle := findFirst_some_le hp hft
      have hparts : parts pat s = s.take i :: parts pat (s.drop (i + pat.length)) := by
        rw [parts_eq hp, hft]
      rw [hparts, countOcc_some hp hft]
      simp only [List.length_cons]
      rw [ih (s.drop (i + pat.length)) (by rw [List.length_drop]; omega)]
      omega

theorem parts_length_eq {pat : List Char} (hp : pat ≠ []) (s : List Char) :
    (parts pat s).length = countOcc pat s + 1 :=
  parts_length_aux hp s.length s (le_refl _)

theorem loopRun_ok {tok : List Char} (hgt : GoodTok tok) :
    ∀ n s used rest, s.length ≤ n → used.length = countOcc tok s →
      (∀ f ∈ used, 1 ≤ f) →
      loopRun tok (used ++ rest) s = .ok (assemble marker (parts tok s) used, rest) := by
  have hne : tok ≠ [] := hgt.1
  intro n
  induction n with
  | zero =>
    intro s used rest hs hlen hpos
    obtain rfl : s = [] := List.eq_nil_of_length_eq_zero (Nat.le_zero.mp hs)
    have hff : findFirst tok [] = none := by
      rw [findFirst, if_neg hne]
    rw [countOcc_none hne hff] at hlen
    obtain rfl : used = [] := List.eq_nil_of_length_eq_zero hlen
    rw [List.nil_append, loopRun_no_match hff, parts_eq hne, hff]
    rfl
  | succ n ih =>
    intro s used rest hs hlen hpos
    cases hft : findFirst tok s with
    | none =>
      rw [countOcc_none hne hft] at hlen
      obtain rfl : used = [] := List.eq_nil_of_length_eq_zero hlen
      rw [List.nil_append, loopRun_no_match hft, parts_eq hne, hft]
      rfl
    | some i =>
      have h0 : 0 < tok.length := List.length_pos.mpr hne
      have hle := findFirst_some_le hne hft
      rw [countOcc_some hne hft] at hlen
      cases used with
      | nil =>
        simp only [List.length_nil] at hlen
        omega
      | cons f used' =>
        have hf1 : 1 ≤ f := hpos f (List.mem_cons_self _ _)
        have hlen' : used'.length = countOcc tok (s.drop (i + tok.length)) := by
          simp only [List.length_cons] at hlen
          omega
        rw [List.cons_append]
        show (if (findFirst tok s).isSome then
            loopRun tok (used' ++ rest) (replaceFirst s tok (runRep marker f))
          else .ok (s, f :: (used' ++ rest))) = _
        rw [hft]
        simp only [Option.isSome_some, if_true]
        have hrf : replaceFirst s tok (runRep marker f) =
            (s.take i ++ runRep marker f) ++ s.drop (i + tok.length) := by
          unfold replaceFirst
          rw [hft]
        rw [hrf]
        have hq : ∀ p, ¬ MatchAt tok (s.take i) p := by
          intro p hm
          have hm' := matchAt_of_take hne hm
          have hpl : p + tok.length ≤ i := by
            have := matchAt_length_le hne hm
            rw [List.length_take] at this
            omega
          exact findFirst_some_min hft p (by omega) hm'
        rw [loopRun_shift tok _ (shiftPre_q_run hgt (s.take i) f hq hf1) (used' ++ rest)
          (s.drop (i + tok.length))]
        rw [ih (s.drop (i + tok.length)) used' rest (by rw [List.length_drop]; omega)
          hlen' (fun f' hf' => hpos f' (List.mem_cons_of_mem _ hf'))]
        have hparts : parts tok s = s.take i :: parts tok (s.drop (i + tok.length)) := by
          rw [parts_eq hne, hft]
        rw [hparts]
        rfl

theorem expandAll_ok {tok : List Char} (hgt : GoodTok tok) :
    ∀ prompts fs, (prompts.map (countOcc tok)).sum ≤ fs.length →
      (∀ f ∈ fs, 1 ≤ f) →
      expandAll tok prompts fs =
        .ok (expandMid tok prompts fs, fs.drop ((prompts.map (countOcc tok)).sum)) := by
  intro prompts
  induction prompts with
  | nil =>
    intro fs _ _
    simp [expandAll, expandMid]
  | cons s rest ih =>
    intro fs hle hpos
    simp only [List.map_cons, List.sum_cons] at hle ⊢
    have hc : countOcc tok s ≤ fs.length := by omega
    have hlen : (fs.take (countOcc tok s)).length = countOcc tok s := by
      rw [List.length_take]
      omega
    have hl : loopRun tok fs s =
        .ok (assemble marker (parts tok s) (fs.take (countOcc tok s)),
          fs.drop (countOcc tok s)) := by
      conv_lhs => rw [← List.take_append_drop (countOcc tok s) fs]
      exact loopRun_ok hgt s.length s _ _ (le_refl _) hlen
        (fun f hf => hpos f (List.mem_of_mem_take hf))
    have hrest := ih (fs.drop (countOcc tok s))
      (by rw [List.length_drop]; omega)
      (fun f hf => hpos f (List.mem_of_mem_drop hf))
    simp only [expandAll, hl, hrest, expandMid]
    rw [List.drop_drop]

theorem countOcc_front_run {tok : List Char} (hp : tok ≠ []) :
    ∀ k B, countOcc tok (runRep tok k ++ B) = k + countOcc tok B := by
  intro k
  induction k with
  | zero => intro B; simp [runRep]
  | succ k ih =>
    intro B
    have hassoc : runRep tok (k + 1) ++ B = tok ++ (runRep tok k ++ B) := by
      show (tok ++ runRep tok k) ++ B = _
      rw [List.append_assoc]
    rw [hassoc]
    have hfr : findFirst tok (tok ++ (runRep tok k ++ B)) = some 0 :=
      findFirst_front (by rw [List.take_append_eq_append_take, List.take_length,
        Nat.sub_self, List.take_zero, List.append_nil])
    rw [countOcc_some hp hfr]
    rw [show (0 : Nat) + tok.length = tok.length by omega, List.drop_left]
    rw [ih]
    omega

theorem countOcc_shift {pat pre t : List Char} (hp : pat ≠ [])
    (hs : findFirst pat (pre ++ t) = (findFirst pat t).map (· + pre.length)) :
    countOcc pat (pre ++ t) = countOcc pat t := by
  cases hft : findFirst pat t with
  | none =>
    rw [countOcc_none hp (by rw [hs, hft]; rfl), countOcc_none hp hft]
  | some i =>
    rw [countOcc_some hp
      (show findFirst pat (pre ++ t) = some (i + pre.length) by rw [hs, hft]; rfl)]
    rw [countOcc_some hp hft]
    congr 1
    rw [show i + pre.length + pat.length = pre.length + (i + pat.length) by omega,
      ← List.drop_drop, List.drop_left]

theorem countOcc_assemble {tok : List Char} (hgt : GoodTok tok) :
    ∀ fs qs, (∀ q ∈ qs, ∀ p, ¬ MatchAt tok q p) → (∀ f ∈ fs, 1 ≤ f) →
      qs.length = fs.length + 1 →
      countOcc tok (assemble tok qs fs) = fs.sum := by
  have hp : tok ≠ [] := hgt.1
  intro fs
  induction fs with
  | nil =>
    intro qs hq _ hlen
    cases qs with
    | nil => simp at hlen
    | cons q qs' =>
      cases qs' with
      | nil =>
        show countOcc tok q = 0
        exact countOcc_none hp ((findFirst_none_iff ..).mpr (fun p => hq q (by simp) p))
      | cons _ _ =>
        simp only [List.length_cons, List.length_nil] at hlen
        omega
  | cons f fs ih =>
    intro qs hq hpos hlen
    cases qs with
    | nil => simp at hlen
    | cons q qs' =>
      have hf1 : 1 ≤ f := hpos f (by simp)
      show countOcc tok (q ++ runRep tok f ++ assemble tok qs' fs) = (f :: fs).sum
      rw [List.append_assoc]
      rw [countOcc_shift hp (findFirst_shift_q_run hp hgt.2.2.1 q
        (fun p => hq q (by simp) p) f hf1 _)]
      rw [countOcc_front_run hp]
      rw [ih qs' (fun q' hq' p => hq q' (by simp [hq']) p)
        (fun f' hf' => hpos f' (by simp [hf']))
        (by simp only [List.length_cons] at hlen ⊢; omega)]
      simp

theorem replaceAll_run (rep : List Char) :
    ∀ k B, replaceAll marker rep (runRep marker k ++ B) =
      runRep rep k ++ replaceAll marker rep B := by
  have hmne : marker ≠ [] := by decide
  intro k
  induction k with
  | zero => intro B; simp [runRep]
  | succ k ih =>
    intro B
    have hassoc : runRep marker (k + 1) ++ B = marker ++ (runRep marker k ++ B) := by
      show (marker ++ runRep marker k) ++ B = _
      rw [List.append_assoc]
    rw [hassoc]
    have hfr : findFirst marker (marker ++ (runRep marker k ++ B)) = some 0 :=
      findFirst_front (by rw [List.take_append_eq_append_take, List.take_length,
        Nat.sub_self, List.take_zero, List.append_nil])
    rw [replaceAll_some hmne hfr]
    rw [show (0 : Nat) + marker.length = marker.length by omega, List.drop_left,
      List.take_zero, ih]
    show rep ++ (runRep rep k ++ replaceAll marker rep B) = _
    rw [show runRep rep (k + 1) = rep ++ runRep rep k from rfl, List.append_assoc]

theorem replaceAll_assemble (tok : List Char) :
    ∀ fs qs, (∀ q ∈ qs, findFirst marker q = none) → (∀ f ∈ fs, 1 ≤ f) →
      qs.length = fs.length + 1 →
      replaceAll marker tok (assemble marker qs fs) = assemble tok qs fs := by
  have hmne : marker ≠ [] := by decide
  have hbord : ∀ k, k < marker.length → 0 < k →
      marker.take (marker.length - k) ≠ marker.drop k := by decide
  intro fs
  induction fs with
  | nil =>
    intro qs hq _ hlen
    cases qs with
    | nil => simp at hlen
    | cons q qs' =>
      cases qs' with
      | nil => exact replaceAll_none hmne (hq q (by simp))
      | cons _ _ =>
        simp only [List.length_cons, List.length_nil] at hlen
        omega
  | cons f fs ih =>
    intro qs hq hpos hlen
    cases qs with
    | nil => simp at hlen
    | cons q qs' =>
      have hf1 : 1 ≤ f := hpos f (by simp)
      obtain ⟨f', rfl⟩ : ∃ f', f = f' + 1 := ⟨f - 1, by omega⟩
      show replaceAll marker tok
        ((q ++ runRep marker (f' + 1)) ++ assemble marker qs' fs) = _
      rw [List.append_assoc]
      have hsh := findFirst_shift_q_run hmne hbord q
        (fun p => (findFirst_none_iff ..).mp (hq q (by simp)) p) (f' + 1) (by omega)
        (assemble marker qs' fs)
      have hfr0 : findFirst marker
          (runRep marker (f' + 1) ++ assemble marker qs' fs) = some 0 := by
        apply findFirst_front
        show ((marker ++ runRep marker f') ++ assemble marker qs' fs).take marker.length
          = marker
        rw [List.append_assoc, List.take_append_eq_append_take, List.take_length,
          Nat.sub_self, List.take_zero, List.append_nil]
      have hfr : findFirst marker
          (q ++ (runRep marker (f' + 1) ++ assemble marker qs' fs)) =
          some (0 + q.length) := by
        rw [hsh, hfr0]
        rfl
      rw [replaceAll_some hmne hfr]
      have htk : (q ++ (runRep marker (f' + 1) ++ assemble marker qs' fs)).take
          (0 + q.length) = q := by
        rw [show (0 : Nat) + q.length = q.length by omega]
        exact List.take_left q _
      have hdr : (q ++ (runRep marker (f' + 1) ++ assemble marker qs' fs)).drop
          (0 + q.length + marker.length) = runRep marker f' ++ assemble marker qs' fs := by
        rw [show (0 : Nat) + q.length + marker.length = q.length + marker.length by omega,
          ← List.drop_drop, List.drop_left]
        rw [show runRep marker (f' + 1) ++ assemble marker qs' fs =
          marker ++ (runRep marker f' ++ assemble marker qs' fs) by
            rw [← List.append_assoc]; rfl]
        exact List.drop_left marker _
      rw [htk, hdr]
      rw [replaceAll_run tok f' (assemble marker qs' fs)]
      rw [ih qs' (fun q' h => hq q' (by simp [h])) (fun g hg => hpos g (by simp [hg]))
        (by simp only [List.length_cons] at hlen ⊢; omega)]
      show (q ++ tok) ++ (runRep tok f' ++ assemble tok qs' fs) =
        (q ++ runRep tok (f' + 1)) ++ assemble tok qs' fs
      rw [show runRep tok (f' + 1) = tok ++ runRep tok f' from rfl]
      simp [List.append_assoc]

theorem expandMid_to_spec {tok : List Char} (hgt : GoodTok tok) :
    ∀ prompts fs, (∀ s ∈ prompts, findFirst marker s = none) →
      (∀ f ∈ fs, 1 ≤ f) →
      (prompts.map (countOcc tok)).sum ≤ fs.length →
      (expandMid tok prompts fs).map (fun s => replaceAll marker tok s) =
        expandSpec tok prompts fs := by
  have hp : tok ≠ [] := hgt.1
  have hmne : marker ≠ [] := by decide
  intro prompts
  induction prompts with
  | nil => intro fs _ _ _; rfl
  | cons s rest ih =>
    intro fs hfree hpos hle
    simp only [List.map_cons, List.sum_cons] at hle
    simp only [expandMid, expandSpec, List.map_cons]
    congr 1
    · apply replaceAll_assemble tok (fs.take (countOcc tok s)) (parts tok s)
      · exact parts_other_free hp hmne s (hfree s (by simp))
      · exact fun f hf => hpos f (List.mem_of_mem_take hf)
      · rw [parts_length_eq hp, List.length_take, Nat.min_eq_left (by omega)]
    · exact ih (fs.drop (countOcc tok s)) (fun s' hs' => hfree s' (by simp [hs']))
        (fun f hf => hpos f (List.mem_of_mem_drop hf)) (by rw [List.length_drop]; omega)

theorem expandSpec_count {tok : List Char} (hgt : GoodTok tok) :
    ∀ prompts fs, (prompts.map (countOcc tok)).sum = fs.length →
      (∀ f ∈ fs, 1 ≤ f) →
      ((expandSpec tok prompts fs).map (countOcc tok)).sum = fs.sum := by
  have hp : tok ≠ [] := hgt.1
  intro prompts
  induction prompts with
  | nil =>
    intro fs hcnt _
    obtain rfl : fs = [] := List.eq_nil_of_length_eq_zero (by simpa using hcnt.symm)
    rfl
  | cons s rest ih =>
    intro fs hcnt hpos
    simp only [List.map_cons, List.sum_cons] at hcnt
    simp only [expandSpec, List.map_cons, List.sum_cons]
    rw [countOcc_assemble hgt (fs.take (countOcc tok s)) (parts tok s)
      (parts_no_match hp s) (fun f hf => hpos f (List.mem_of_mem_take hf))
      (by rw [parts_length_eq hp, List.length_take, Nat.min_eq_left (by omega)])]
    rw [ih (fs.drop (countOcc tok s)) (by rw [List.length_drop]; omega)
      (fun f hf => hpos f (List.mem_of_mem_drop hf))]
    conv_rhs => rw [← List.take_append_drop (countOcc tok s) fs]
    rw [List.sum_append]

theorem expandAll_inert {tok : List Char} :
    ∀ prompts fs, (∀ s ∈ prompts, findFirst tok s = none) →
      expandAll tok prompts fs = .ok (prompts, fs) := by
  intro prompts
  induction prompts with
  | nil => intro fs _; rfl
  | cons s rest ih =>
    intro fs h
    have h1 := loopRun_no_match (h s (by simp)) fs
    have h2 := ih fs (fun s' hs' => h s' (by simp [hs']))
    simp only [expandAll, h1, h2]

/-- Claim C2 counterexample: a prompt consisting of the bare text
`"<placeholder>"` contains zero audio tokens, so with zero clips the claim
promises an output with zero placeholder tokens, but the expansion rewrites
the literal text into one audio token. -/
theorem expandAudioPlaceholders_literal_marker_cex :
    countOcc defaultAudioToken "<placeholder>".toList = 0 ∧
    expandAudioPlaceholders defaultAudioToken ["<placeholder>".toList] [] =
      .ok ["<|audio|>".toList] ∧
    countOcc defaultAudioToken "<|audio|>".toList = 1 := by
  refine ⟨by decide, rfl, by decide⟩

/-- Claim C2 (amended): for prompts that do not contain the literal substring
`"<placeholder>"`, and per-clip frame counts that are all positive, the
expansion succeeds, rewrites the `i`-th greedy occurrence of the audio token
(prompts in order, occurrences left to right) into a run of `f_i` copies of
the token, and the total count of audio tokens over the output equals
`sum(f_1..f_N)`.  `GoodTok` packages decidable side conditions on the token
satisfied by the default `"<|audio|>"`. -/
theorem expandAudioPlaceholders_correct (tok : List Char) (hgt : GoodTok tok)
    (prompts : List (List Char)) (fs : List Nat)
    (hcount : (prompts.map (countOcc tok)).sum = fs.length)
    (hpos : ∀ f ∈ fs, 1 ≤ f)
    (hmfree : ∀ s ∈ prompts, findFirst marker s = none) :
    expandAudioPlaceholders tok prompts fs = .ok (expandSpec tok prompts fs) ∧
    ((expandSpec tok prompts fs).map (countOcc tok)).sum = fs.sum := by
  have hA := expandAll_ok hgt prompts fs (le_of_eq hcount) hpos
  constructor
  · simp only [expandAudioPlaceholders, hA]
    rw [expandMid_to_spec hgt prompts fs hmfree hpos (le_of_eq hcount)]
  · exact expandSpec_count hgt prompts fs hcount hpos

/-- Witness for C2: one prompt with one audio token and frame count 2
expands to a run of two audio tokens; the total token count is 2. -/
theorem expandAudioPlaceholders_correct_witness :
    GoodTok defaultAudioToken ∧
    expandAudioPlaceholders defaultAudioToken ["a<|audio|>b".toList] [2] =
      .ok (expandSpec defaultAudioToken ["a<|audio|>b".toList] [2]) ∧
    ((expandSpec defaultAudioToken ["a<|audio|>b".toList] [2]).map
      (countOcc defaultAudioToken)).sum = [2].sum ∧
    expandAudioPlaceholders defaultAudioToken ["a<|audio|>b".toList] [2] =
      .ok ["a<|audio|><|audio|>b".toList] := by
  have hgt : GoodTok defaultAudioToken := by
    refine ⟨by decide, by decide, by decide, by decide, by decide, by decide, by decide⟩
  have h := expandAudioPlaceholders_correct defaultAudioToken hgt
    ["a<|audio|>b".toList] [2] (by decide) (by decide)
    (by
      intro s hs
      simp only [List.mem_singleton] at hs
      subst hs
      decide)
  exact ⟨hgt, h.1, h.2, rfl⟩

/-- Claim C10: expansion is the identity on prompts containing neither the
audio token nor the literal substring `"<placeholder>"`, but a prompt whose
ordinary text contains `"<placeholder>"` (with no audio token and no clips)
has that substring rewritten into the audio token by the final replacement
pass. -/
theorem expandAudioPlaceholders_frame :
    (∀ (tok : List Char) (prompts : List (List Char)) (fs : List Nat),
      (∀ s ∈ prompts, findFirst tok s = none ∧ findFirst marker s = none) →
      expandAudioPlaceholders tok prompts fs = .ok prompts) ∧
    expandAudioPlaceholders defaultAudioToken ["say <placeholder> now".toList] [] =
      .ok ["say <|audio|> now".toList] := by
  constructor
  · intro tok prompts fs h
    have hmne : marker ≠ [] := by decide
    simp only [expandAudioPlaceholders, expandAll_inert prompts fs (fun s hs => (h s hs).1)]
    have hmap : prompts.map (fun s => replaceAll marker tok s) = prompts := by
      conv_rhs => rw [← List.map_id prompts]
      apply List.map_congr_left
      intro s hs
      exact replaceAll_none hmne (h s hs).2
    rw [hmap]
  · rfl

/-- Witness for C10: a concrete clean prompt passes through unchanged. -/
theorem expandAudioPlaceholders_frame_witness :
    expandAudioPlaceholders defaultAudioToken ["hello".toList] [] =
      .ok ["hello".toList] := by
  apply expandAudioPlaceholders_frame.1 defaultAudioToken ["hello".toList] []
  intro s hs
  simp only [List.mem_singleton] at hs
  subst hs
  exact ⟨by decide, by decide⟩
